import Mathlib

/-!
Verification development for the clipboard-image storage feature.

The source under scrutiny is `src/electron/clipboard-image-handler.ts`
(and its extended variant in `src/unnamed/part_001`): a FileBackend that
stores one image per file named `{id}{ext}` inside a directory, plus the
clipboard capture helpers.  Strings are embedded as `List Char`, byte
payloads as `List Nat`, and the store directory as an association list
from file name to file content.  Parts of the repository that are not in
`src/` (the Reference parser/formatter, the IndexedDB BlobStoreBackend,
the frontend's mimeType-to-extension choice) are modelled from the spec
and marked as such in their doc comments.
-/

/-- Converts a string literal to the `List Char` representation used
throughout this development. -/
def chars (s : String) : List Char := s.data

/-- Models JavaScript `String.prototype.toLowerCase` on the ASCII strings
this feature compares (file extensions). -/
def toLowerStr (s : List Char) : List Char := s.map Char.toLower

/-- Returns the suffix of `s` starting at the last `'.'`, or `none` when
`s` has no dot.  Helper for `extname`. -/
def lastDotSuffix : List Char → Option (List Char)
  | [] => none
  | c :: cs =>
    match lastDotSuffix cs with
    | some t => some t
    | none => if c = '.' then some (c :: cs) else none

/-- Returns the suffix of `s` strictly after the last `'/'`, or `none`
when `s` has no separator.  Helper for `extname`. -/
def lastSepSuffix : List Char → Option (List Char)
  | [] => none
  | c :: cs =>
    match lastSepSuffix cs with
    | some t => some t
    | none => if c = '/' then some cs else none

/-- Removes trailing path separators, as Node's path functions do before
looking at the final path component. -/
def dropTrailingSep (s : List Char) : List Char :=
  (s.reverse.dropWhile (fun c => c = '/')).reverse

/-- Returns the part of `s` after its last `'/'` (all of `s` when there
is none).  Helper for `extname`. -/
def afterLastSep (s : List Char) : List Char :=
  match lastSepSuffix s with
  | none => s
  | some t => t

/-- Models Node's posix `path.extname`: trailing separators are ignored,
only the final path component is examined, and the extension runs from
the component's last `'.'` to its end — except that a dot in the very
first position of the component marks a hidden file and yields the empty
extension, as does the component `..`.  The separator is modelled as
`'/'`, the form produced by the `file://` URLs the capture handler
parses. -/
def extname (s : List Char) : List Char :=
  let comp := afterLastSep (dropTrailingSep s)
  match lastDotSuffix comp with
  | none => []
  | some t =>
    if t.length = comp.length then []
    else if comp = chars ".." then []
    else t

/-- Embeds `SUPPORTED_IMAGE_EXTENSIONS` from
`src/electron/clipboard-image-handler.ts`. -/
def SUPPORTED_IMAGE_EXTENSIONS : List (List Char) :=
  [chars ".png", chars ".jpg", chars ".jpeg", chars ".gif", chars ".webp",
   chars ".svg", chars ".bmp"]

/-- Embeds `getMimeFromExt`: lowercases the extension and switches over
the known cases, defaulting to `image/png`. -/
def getMimeFromExt (ext : List Char) : List Char :=
  let extLower := toLowerStr ext
  if extLower = chars ".png" then chars "image/png"
  else if extLower = chars ".jpg" ∨ extLower = chars ".jpeg" then chars "image/jpeg"
  else if extLower = chars ".gif" then chars "image/gif"
  else if extLower = chars ".webp" then chars "image/webp"
  else if extLower = chars ".svg" then chars "image/svg+xml"
  else if extLower = chars ".bmp" then chars "image/bmp"
  else chars "image/png"

/-- Looks a key up in an association list (the first matching entry
wins, matching `fs` name resolution and IndexedDB key lookup). -/
def assocLookup {β : Type} : List (List Char × β) → List Char → Option β
  | [], _ => none
  | (k, v) :: es, n => if k = n then some v else assocLookup es n

/-- Content of one stored file: `Except.ok` bytes that read back, or
`Except.error ()` for a file whose read fails at the medium level (the
`fs.readFileSync` throw that the handlers catch). -/
abbrev FileContent := Except Unit (List Nat)

instance : DecidableEq FileContent := fun
  | Except.ok a, Except.ok b =>
    if h : a = b then isTrue (by rw [h]) else isFalse (fun hh => h (Except.ok.inj hh))
  | Except.ok _, Except.error _ => isFalse (fun h => Except.noConfusion h)
  | Except.error _, Except.ok _ => isFalse (fun h => Except.noConfusion h)
  | Except.error a, Except.error b => isTrue (by cases a; cases b; rfl)

/-- State of the clipboard-images directory: an association list from
file name (relative to the directory) to file content.  Later entries
shadowed by earlier ones model `fs.writeFileSync` overwrites. -/
structure FsState where
  files : List (List Char × FileContent)
deriving DecidableEq

/-- Models `fs.existsSync` inside the store directory. -/
def existsSync (s : FsState) (name : List Char) : Bool :=
  (assocLookup s.files name).isSome

/-- Models `fs.readFileSync` inside the store directory. -/
def readFile (s : FsState) (name : List Char) : Option FileContent :=
  assocLookup s.files name

/-- Models `fs.writeFileSync` inside the store directory. -/
def writeFile (s : FsState) (name : List Char) (b : List Nat) : FsState :=
  ⟨(name, Except.ok b) :: s.files⟩

/-- Models `fs.unlinkSync` inside the store directory. -/
def unlink (s : FsState) (name : List Char) : FsState :=
  ⟨s.files.filter (fun e => !decide (e.1 = name))⟩

/-- Embeds `findImageFile`'s loop body: scans an extension list in order
and returns the first `{imageId}{ext}` that exists. -/
def findImageFileAux (s : FsState) (imageId : List Char) :
    List (List Char) → Option (List Char)
  | [] => none
  | ext :: rest =>
    if existsSync s (imageId ++ ext) then some (imageId ++ ext)
    else findImageFileAux s imageId rest

/-- Embeds `findImageFile`: checks `SUPPORTED_IMAGE_EXTENSIONS` in
declaration order. -/
def findImageFile (s : FsState) (imageId : List Char) : Option (List Char) :=
  findImageFileAux s imageId SUPPORTED_IMAGE_EXTENSIONS

/-- Embeds the `CLIPBOARD_IMAGE_SAVE` handler: writes `fileName` with the
decoded bytes into the store directory (directory creation and base64
transport are identities in this model) and returns the file path. -/
def clipboardImageSave (s : FsState) (fileName : List Char) (bytes : List Nat) :
    List Char × FsState :=
  (fileName, writeFile s fileName bytes)

/-- Embeds the `CLIPBOARD_IMAGE_LOAD` handler: resolves the id through
`findImageFile`, reads the file, and reconstructs the mime type from the
file extension; a missing file or a caught read error yields `none`. -/
def clipboardImageLoad (s : FsState) (imageId : List Char) :
    Option (List Nat × List Char) :=
  match findImageFile s imageId with
  | none => none
  | some filePath =>
    match readFile s filePath with
    | some (Except.ok buf) => some (buf, getMimeFromExt (extname filePath))
    | _ => none

/-- Embeds the `CLIPBOARD_IMAGE_DELETE` handler: resolves the id through
`findImageFile`; a missing file returns `false`, otherwise the file is
unlinked and the handler returns `true`.  The result pairs the returned
boolean with the directory state after the call. -/
def clipboardImageDelete (s : FsState) (imageId : List Char) : Bool × FsState :=
  match findImageFile s imageId with
  | none => (false, s)
  | some filePath => (true, unlink s filePath)

/-- Embeds the `CLIPBOARD_IMAGE_GET_PATH` handler. -/
def clipboardImageGetPath (s : FsState) (imageId : List Char) : Option (List Char) :=
  findImageFile s imageId

/-- Embeds the filter at the end of the `CLIPBOARD_GET_FILE_PATHS`
handler: keeps exactly the paths that exist on the filesystem (given here
as the predicate `fsExists`) and whose lowercased `extname` is a
supported image extension. -/
def imageFilesFilter (fsExists : List Char → Bool) (filePaths : List (List Char)) :
    List (List Char) :=
  filePaths.filter (fun filePath =>
    if !fsExists filePath then false
    else SUPPORTED_IMAGE_EXTENSIONS.contains (toLowerStr (extname filePath)))

/-- Embeds the `CLIPBOARD_READ_IMAGE` handler for a non-empty clipboard
image: the decoded clipboard bitmap `pngBytes` (already PNG-encoded by
`image.toPNG()`) is written to `{id}.png` and the returned record carries
mime type `image/png`.  An empty clipboard image is the `none` input. -/
def clipboardReadImage (s : FsState) (id : List Char)
    (image : Option (List Nat)) (now : Nat) :
    Option (List Char × List Char × Nat × Nat) × FsState :=
  match image with
  | none => (none, s)
  | some pngBytes =>
    let fileName := id ++ chars ".png"
    let s' := writeFile s fileName pngBytes
    (some (id, chars "image/png", pngBytes.length, now), s')

/-- Modelled from the spec: the frontend service (not under `src/`)
derives the stored file's extension from the mime type when it builds the
`fileName` passed to `CLIPBOARD_IMAGE_SAVE`; unknown mime types fall back
to `.png`, matching the PNG-normalization policy. -/
def extForMime (m : List Char) : List Char :=
  if m = chars "image/png" then chars ".png"
  else if m = chars "image/jpeg" then chars ".jpg"
  else if m = chars "image/gif" then chars ".gif"
  else if m = chars "image/webp" then chars ".webp"
  else if m = chars "image/svg+xml" then chars ".svg"
  else if m = chars "image/bmp" then chars ".bmp"
  else chars ".png"

/-- Enumerates the fixed mime-type set of the data model. -/
def SUPPORTED_MIME_TYPES : List (List Char) :=
  [chars "image/png", chars "image/jpeg", chars "image/gif", chars "image/webp",
   chars "image/svg+xml", chars "image/bmp"]

/-- Reference embedded in markdown: the backend-issued id plus the
optional `=WxH` sizing hint.  The scheme is the fixed literal
`indexeddb://clipboard-images/` carried by `SCHEME_STR`. -/
structure Reference where
  id : List Char
  dimensions : Option (Nat × Nat)
deriving DecidableEq

/-- Fixed scheme literal of the Reference grammar. -/
def SCHEME_STR : List Char := chars "indexeddb://clipboard-images/"

/-- Maps a single decimal digit to its character. -/
def digitChar (d : Nat) : Char :=
  match d with
  | 0 => '0' | 1 => '1' | 2 => '2' | 3 => '3' | 4 => '4'
  | 5 => '5' | 6 => '6' | 7 => '7' | 8 => '8' | _ => '9'

/-- Renders a positive number in decimal; the first argument is
structural fuel bounding the number of digits. -/
def natToCharsAux : Nat → Nat → List Char
  | 0, _ => []
  | _ + 1, 0 => []
  | fuel + 1, n + 1 =>
    natToCharsAux fuel ((n + 1) / 10) ++ [digitChar ((n + 1) % 10)]

/-- Renders a number in decimal (the formatter's `W` and `H` fields). -/
def natToChars (n : Nat) : List Char := natToCharsAux n n

/-- Tests for a decimal digit character. -/
def isDigitChar (c : Char) : Bool := decide ('0' ≤ c) && decide (c ≤ '9')

/-- Accumulates the value of a decimal digit string. -/
def charsToNatCore (s : List Char) : Nat :=
  s.foldl (fun acc c => acc * 10 + (c.toNat - 48)) 0

/-- Parses a non-empty all-digit string as a number; anything else is
rejected. -/
def charsToNat (s : List Char) : Option Nat :=
  if s.isEmpty then none
  else if s.all isDigitChar then some (charsToNatCore s) else none

/-- Modelled from the spec: the formatter renders a Reference as
`SCHEME://clipboard-images/ID` with the optional ` =WxH` sizing suffix. -/
def formatReference (r : Reference) : List Char :=
  SCHEME_STR ++ r.id ++
    match r.dimensions with
    | none => []
    | some (w, h) => ' ' :: '=' :: (natToChars w ++ 'x' :: natToChars h)

/-- Modelled from the spec: parses the ` =WxH` sizing suffix (the part
after the separating space).  A malformed or non-positive sizing yields
`none` — "no sizing hint" — rather than a failure of the whole parse. -/
def parseSizing (suffix : List Char) : Option (Nat × Nat) :=
  match suffix with
  | [] => none
  | c :: rest =>
    if c = '=' then
      match rest.dropWhile (fun x => x ≠ 'x') with
      | [] => none
      | _ :: hPart =>
        match charsToNat (rest.takeWhile (fun x => x ≠ 'x')), charsToNat hPart with
        | some w, some h => if 0 < w ∧ 0 < h then some (w, h) else none
        | _, _ => none
    else none

/-- Modelled from the spec: parses a Reference out of an image `src`
string.  The scheme literal must lead; the id runs to the first space;
an optional trailing ` ...` block is handed to `parseSizing`, whose
failure degrades to "no sizing hint" instead of failing the parse. -/
def parseReference (s : List Char) : Option Reference :=
  if s.take SCHEME_STR.length = SCHEME_STR then
    let rest := s.drop SCHEME_STR.length
    let id := rest.takeWhile (fun c => c ≠ ' ')
    if id.isEmpty then none
    else
      match rest.dropWhile (fun c => c ≠ ' ') with
      | [] => some ⟨id, none⟩
      | _ :: suffix => some ⟨id, parseSizing suffix⟩
  else none

/-- Characterizes the References the formatter is specified for: a
non-empty id over identifier characters (the generator emits base-36
alphanumerics) and positive sizing values when present. -/
def ValidReference (r : Reference) : Prop :=
  r.id ≠ [] ∧ (∀ c ∈ r.id, c.isAlphanum = true) ∧
    ∀ wh ∈ r.dimensions, 0 < wh.1 ∧ 0 < wh.2

/-- Stored record of the BlobStoreBackend. -/
structure BlobRecord where
  bytes : List Nat
  mimeType : List Char
  size : Nat
  createdAt : Nat
deriving DecidableEq

/-- State of the BlobStoreBackend: an association list keyed by id. -/
structure BlobStore where
  entries : List (List Char × BlobRecord)
deriving DecidableEq

/-- Save-time failure taxonomy of the storage interface. -/
inductive SaveError
  | sizeLimitExceeded
  | storageWriteError
deriving DecidableEq

/-- Size cap of the capped backend: 2 MiB. -/
def MAX_IMAGE_SIZE : Nat := 2 * 1024 * 1024

/-- Modelled from the spec: `BlobStoreBackend.save` (the IndexedDB
backend is not under `src/`).  The size check runs before any write: an
oversize payload returns `SizeLimitExceeded` with the store untouched;
otherwise the record is inserted under the fresh id. -/
def blobSave (store : BlobStore) (id : List Char) (bytes : List Nat)
    (mime : List Char) (now : Nat) :
    Except SaveError (List Char) × BlobStore :=
  if MAX_IMAGE_SIZE < bytes.length then
    (Except.error SaveError.sizeLimitExceeded, store)
  else
    (Except.ok id, ⟨(id, ⟨bytes, mime, bytes.length, now⟩) :: store.entries⟩)

/-- Modelled from the spec: `BlobStoreBackend.load` looks the id up in
the key/value store. -/
def blobLoad (store : BlobStore) (id : List Char) : Option BlobRecord :=
  assocLookup store.entries id


theorem assocLookup_filter_ne {β : Type} (l : List (List Char × β)) (n fp : List Char)
    (h : n ≠ fp) :
    assocLookup (l.filter (fun e => !decide (e.1 = fp))) n = assocLookup l n := by
  induction l with
  | nil => rfl
  | cons e es ih =>
    obtain ⟨k, v⟩ := e
    rw [List.filter_cons]
    by_cases hk : k = fp
    · rw [if_neg (by simp [hk])]
      have hkn : k ≠ n := fun hkn => h (by rw [← hkn, hk])
      rw [ih]
      show _ = assocLookup ((k, v) :: es) n
      simp only [assocLookup, if_neg hkn]
    · rw [if_pos (by simp [hk])]
      show assocLookup ((k, v) :: List.filter _ es) n = assocLookup ((k, v) :: es) n
      simp only [assocLookup]
      rw [ih]

theorem assocLookup_filter_self {β : Type} (l : List (List Char × β)) (fp : List Char) :
    assocLookup (l.filter (fun e => !decide (e.1 = fp))) fp = none := by
  induction l with
  | nil => rfl
  | cons e es ih =>
    obtain ⟨k, v⟩ := e
    rw [List.filter_cons]
    by_cases hk : k = fp
    · rw [if_neg (by simp [hk])]
      exact ih
    · rw [if_pos (by simp [hk])]
      show assocLookup ((k, v) :: List.filter _ es) fp = none
      simp only [assocLookup, if_neg hk]
      exact ih

theorem existsSync_unlink (s : FsState) (n m : List Char) :
    existsSync (unlink s n) m = (existsSync s m && decide (m ≠ n)) := by
  by_cases h : m = n
  · subst h
    simp [existsSync, unlink, assocLookup_filter_self]
  · simp [existsSync, unlink, assocLookup_filter_ne _ _ _ h, h]

theorem existsSync_writeFile (s : FsState) (n m : List Char) (b : List Nat) :
    existsSync (writeFile s n b) m = (decide (m = n) || existsSync s m) := by
  by_cases h : m = n
  · subst h; simp [existsSync, writeFile, assocLookup]
  · simp [existsSync, writeFile, assocLookup, h, Ne.symm h]

theorem readFile_writeFile_self (s : FsState) (n : List Char) (b : List Nat) :
    readFile (writeFile s n b) n = some (Except.ok b) := by
  simp [readFile, writeFile, assocLookup]

theorem findImageFileAux_none (s : FsState) (id : List Char) (exts : List (List Char))
    (h : ∀ ext ∈ exts, existsSync s (id ++ ext) = false) :
    findImageFileAux s id exts = none := by
  induction exts with
  | nil => rfl
  | cons e rest ih =>
    have he : existsSync s (id ++ e) = false := h e (List.mem_cons_self e rest)
    simp only [findImageFileAux, he, Bool.false_eq_true, if_false]
    exact ih fun ext hx => h ext (List.mem_cons_of_mem e hx)

theorem findImageFileAux_first (s : FsState) (id ext0 : List Char)
    (exts : List (List Char)) (hmem : ext0 ∈ exts)
    (h1 : existsSync s (id ++ ext0) = true)
    (h2 : ∀ ext ∈ exts, ext ≠ ext0 → existsSync s (id ++ ext) = false) :
    findImageFileAux s id exts = some (id ++ ext0) := by
  induction exts with
  | nil => cases hmem
  | cons e rest ih =>
    by_cases he : e = ext0
    · subst he; simp only [findImageFileAux, h1, if_true]
    · have hf : existsSync s (id ++ e) = false :=
        h2 e (List.mem_cons_self e rest) he
      have hmem' : ext0 ∈ rest := by
        cases hmem with
        | head => exact absurd rfl he
        | tail _ hx => exact hx
      simp only [findImageFileAux, hf, Bool.false_eq_true, if_false]
      exact ih hmem' fun ext hx hne => h2 ext (List.mem_cons_of_mem e hx) hne

theorem findImageFileAux_some_iff (s : FsState) (id : List Char)
    (exts : List (List Char)) (fp : List Char) :
    findImageFileAux s id exts = some fp ↔
      ∃ l₁ ext l₂, exts = l₁ ++ ext :: l₂ ∧ fp = id ++ ext ∧
        existsSync s (id ++ ext) = true ∧
        ∀ e ∈ l₁, existsSync s (id ++ e) = false := by
  induction exts with
  | nil =>
    simp only [findImageFileAux]
    constructor
    · intro h; exact absurd h (by simp)
    · rintro ⟨l₁, ext, l₂, habs, -⟩
      rcases l₁ with _ | ⟨a, l₁'⟩ <;> simp at habs
  | cons e rest ih =>
    by_cases he : existsSync s (id ++ e) = true
    · simp only [findImageFileAux, he, if_true]
      constructor
      · intro h
        refine ⟨[], e, rest, rfl, (Option.some_inj.mp h).symm, he, ?_⟩
        intro x hx; cases hx
      · rintro ⟨l₁, ext, l₂, hdec, hfp, hex, hall⟩
        cases l₁ with
        | nil =>
          simp only [List.nil_append, List.cons.injEq] at hdec
          rw [hfp, hdec.1]
        | cons a l₁' =>
          simp only [List.cons_append, List.cons.injEq] at hdec
          have hfa := hall a (List.mem_cons_self a l₁')
          rw [← hdec.1] at hfa
          rw [he] at hfa
          cases hfa
    · have he' : existsSync s (id ++ e) = false := by
        cases hb : existsSync s (id ++ e) with
        | true => exact absurd hb he
        | false => rfl
      simp only [findImageFileAux, he', Bool.false_eq_true, if_false]
      rw [ih]
      constructor
      · rintro ⟨l₁, ext, l₂, hdec, hfp, hex, hall⟩
        refine ⟨e :: l₁, ext, l₂, by rw [hdec]; rfl, hfp, hex, ?_⟩
        intro x hx
        cases hx with
        | head => exact he'
        | tail _ hx' => exact hall x hx'
      · rintro ⟨l₁, ext, l₂, hdec, hfp, hex, hall⟩
        cases l₁ with
        | nil =>
          simp only [List.nil_append, List.cons.injEq] at hdec
          rw [← hdec.1] at hex
          rw [he'] at hex
          cases hex
        | cons a l₁' =>
          simp only [List.cons_append, List.cons.injEq] at hdec
          refine ⟨l₁', ext, l₂, hdec.2, hfp, hex, ?_⟩
          intro x hx
          exact hall x (List.mem_cons_of_mem a hx)

theorem lastDotSuffix_eq_none (l : List Char) (h : '.' ∉ l) :
    lastDotSuffix l = none := by
  induction l with
  | nil => rfl
  | cons c cs ih =>
    have hc : c ≠ '.' := fun hc => h (hc ▸ List.mem_cons_self c cs)
    have hcs : '.' ∉ cs := fun hx => h (List.mem_cons_of_mem c hx)
    simp only [lastDotSuffix, ih hcs]
    rw [if_neg hc]

theorem lastDotSuffix_append (id l t : List Char) (h : lastDotSuffix l = some t) :
    lastDotSuffix (id ++ l) = some t := by
  induction id with
  | nil => exact h
  | cons c cs ih =>
    have ih' : lastDotSuffix (cs.append l) = some t := ih
    simp only [List.cons_append, lastDotSuffix, ih']

theorem lastSepSuffix_eq_none (l : List Char) (h : '/' ∉ l) :
    lastSepSuffix l = none := by
  induction l with
  | nil => rfl
  | cons c cs ih =>
    have hc : c ≠ '/' := fun hc => h (hc ▸ List.mem_cons_self c cs)
    have hcs : '/' ∉ cs := fun hx => h (List.mem_cons_of_mem c hx)
    simp only [lastSepSuffix, ih hcs]
    rw [if_neg hc]

theorem dropWhile_eq_self_of_false (p : Char → Bool) (l : List Char)
    (h : ∀ c ∈ l, p c = false) : l.dropWhile p = l := by
  cases l with
  | nil => rfl
  | cons a as =>
    have ha : p a = false := h a (List.mem_cons_self a as)
    simp [List.dropWhile, ha]

theorem dropTrailingSep_eq_self (s : List Char) (h : '/' ∉ s) :
    dropTrailingSep s = s := by
  have hall : ∀ c ∈ s.reverse, (decide (c = '/')) = false := by
    intro c hc
    have hcs : c ∈ s := List.mem_reverse.mp hc
    have hne : c ≠ '/' := fun he => h (he ▸ hcs)
    simp [hne]
  show (s.reverse.dropWhile (fun c => decide (c = '/'))).reverse = s
  rw [dropWhile_eq_self_of_false _ _ hall, List.reverse_reverse]

theorem afterLastSep_eq_self (s : List Char) (h : '/' ∉ s) :
    afterLastSep s = s := by
  simp [afterLastSep, lastSepSuffix_eq_none s h]

theorem extname_append_ext (id r : List Char) (hid : id ≠ []) (hrne : r ≠ [])
    (hsid : '/' ∉ id) (hsr : '/' ∉ r) (hr : '.' ∉ r) :
    extname (id ++ '.' :: r) = '.' :: r := by
  have hsep : '/' ∉ id ++ '.' :: r := by
    intro hmem
    rcases List.mem_append.mp hmem with hm | hm
    · exact hsid hm
    · rcases List.mem_cons.mp hm with hm | hm
      · exact absurd hm (by decide)
      · exact hsr hm
  have hstrip : dropTrailingSep (id ++ '.' :: r) = id ++ '.' :: r :=
    dropTrailingSep_eq_self _ hsep
  have hcomp : afterLastSep (id ++ '.' :: r) = id ++ '.' :: r :=
    afterLastSep_eq_self _ hsep
  have hdotr : lastDotSuffix ('.' :: r) = some ('.' :: r) := by
    simp [lastDotSuffix, lastDotSuffix_eq_none r hr]
  have hfull : lastDotSuffix (id ++ '.' :: r) = some ('.' :: r) :=
    lastDotSuffix_append id _ _ hdotr
  have hidlen : 0 < id.length := List.length_pos.mpr hid
  have hrlen : 0 < r.length := List.length_pos.mpr hrne
  simp only [extname, hstrip, hcomp, hfull]
  have hc1 : ¬ (('.' :: r).length = (id ++ '.' :: r).length) := by
    intro hlen
    rw [List.length_append] at hlen
    omega
  have hc2 : ¬ (id ++ '.' :: r = chars "..") := by
    intro he
    have hlen := congrArg List.length he
    rw [List.length_append, show (chars "..").length = 2 from rfl] at hlen
    simp only [List.length_cons] at hlen
    omega
  rw [if_neg hc1, if_neg hc2]

theorem not_dot_of_alphanum (id : List Char) (h : ∀ c ∈ id, c.isAlphanum = true) :
    '.' ∉ id := by
  intro hmem
  have := h '.' hmem
  exact absurd this (by decide)

theorem load_after_save (s : FsState) (b : List Nat) (id ext0 : List Char)
    (hex : ext0 ∈ SUPPORTED_IMAGE_EXTENSIONS)
    (hid : id ≠ []) (hsep : '/' ∉ id)
    (hext0 : ∃ r, ext0 = '.' :: r ∧ r ≠ [] ∧ '/' ∉ r ∧ '.' ∉ r)
    (hfresh : ∀ ext ∈ SUPPORTED_IMAGE_EXTENSIONS, existsSync s (id ++ ext) = false) :
    clipboardImageLoad (writeFile s (id ++ ext0) b) id
      = some (b, getMimeFromExt ext0) := by
  have h1 : existsSync (writeFile s (id ++ ext0) b) (id ++ ext0) = true := by
    rw [existsSync_writeFile]; simp
  have h2 : ∀ ext ∈ SUPPORTED_IMAGE_EXTENSIONS, ext ≠ ext0 →
      existsSync (writeFile s (id ++ ext0) b) (id ++ ext) = false := by
    intro ext hx hne
    rw [existsSync_writeFile]
    have hnn : id ++ ext ≠ id ++ ext0 := fun hh => hne (List.append_cancel_left hh)
    simp [hnn, hfresh ext hx]
  have hfind : findImageFile (writeFile s (id ++ ext0) b) id = some (id ++ ext0) :=
    findImageFileAux_first _ _ _ _ hex h1 h2
  obtain ⟨r, hr, hrne, hrsep, hrdot⟩ := hext0
  simp only [clipboardImageLoad, hfind, readFile_writeFile_self]
  rw [hr]
  rw [extname_append_ext id r hid hrne hsep hrsep hrdot]

/-- C1: saving a payload with a supported mime type under a fresh
generated id and loading that id back yields exactly the saved bytes and
the saved mime type, the latter reconstructed from the file extension
chosen at save time. -/
theorem save_load_fidelity (s : FsState) (b : List Nat) (m id : List Char)
    (hm : m ∈ SUPPORTED_MIME_TYPES)
    (hid : id ≠ []) (hsep : '/' ∉ id)
    (hfresh : ∀ ext ∈ SUPPORTED_IMAGE_EXTENSIONS, existsSync s (id ++ ext) = false) :
    clipboardImageLoad (clipboardImageSave s (id ++ extForMime m) b).2 id
      = some (b, m) := by
  simp only [SUPPORTED_MIME_TYPES, List.mem_cons, List.not_mem_nil, or_false] at hm
  rcases hm with rfl | rfl | rfl | rfl | rfl | rfl
  · have hs : (clipboardImageSave s (id ++ extForMime (chars "image/png")) b).2
        = writeFile s (id ++ ('.' :: chars "png")) b := rfl
    rw [hs, load_after_save s b id _ (by decide) hid hsep ⟨_, rfl, by decide, by decide, by decide⟩ hfresh]
    rfl
  · have hs : (clipboardImageSave s (id ++ extForMime (chars "image/jpeg")) b).2
        = writeFile s (id ++ ('.' :: chars "jpg")) b := rfl
    rw [hs, load_after_save s b id _ (by decide) hid hsep ⟨_, rfl, by decide, by decide, by decide⟩ hfresh]
    rfl
  · have hs : (clipboardImageSave s (id ++ extForMime (chars "image/gif")) b).2
        = writeFile s (id ++ ('.' :: chars "gif")) b := rfl
    rw [hs, load_after_save s b id _ (by decide) hid hsep ⟨_, rfl, by decide, by decide, by decide⟩ hfresh]
    rfl
  · have hs : (clipboardImageSave s (id ++ extForMime (chars "image/webp")) b).2
        = writeFile s (id ++ ('.' :: chars "webp")) b := rfl
    rw [hs, load_after_save s b id _ (by decide) hid hsep ⟨_, rfl, by decide, by decide, by decide⟩ hfresh]
    rfl
  · have hs : (clipboardImageSave s (id ++ extForMime (chars "image/svg+xml")) b).2
        = writeFile s (id ++ ('.' :: chars "svg")) b := rfl
    rw [hs, load_after_save s b id _ (by decide) hid hsep ⟨_, rfl, by decide, by decide, by decide⟩ hfresh]
    rfl
  · have hs : (clipboardImageSave s (id ++ extForMime (chars "image/bmp")) b).2
        = writeFile s (id ++ ('.' :: chars "bmp")) b := rfl
    rw [hs, load_after_save s b id _ (by decide) hid hsep ⟨_, rfl, by decide, by decide, by decide⟩ hfresh]
    rfl

/-- Witness for C1: a concrete JPEG payload saved into an empty store
round-trips through save and load. -/
theorem save_load_fidelity_witness :
    clipboardImageLoad
        (clipboardImageSave ⟨[]⟩ (chars "a1b2" ++ extForMime (chars "image/jpeg")) [7, 0, 255]).2
        (chars "a1b2")
      = some ([7, 0, 255], chars "image/jpeg") :=
  save_load_fidelity ⟨[]⟩ [7, 0, 255] (chars "image/jpeg") (chars "a1b2")
    (by decide) (by decide) (by decide) (by decide)

theorem isDigitChar_digitChar (d : Nat) : isDigitChar (digitChar d) = true := by
  match d with
  | 0 | 1 | 2 | 3 | 4 | 5 | 6 | 7 | 8 => decide
  | n + 9 => rfl

theorem digitChar_val (d : Nat) (h : d < 10) : (digitChar d).toNat - 48 = d := by
  match d, h with
  | 0, _ | 1, _ | 2, _ | 3, _ | 4, _ | 5, _ | 6, _ | 7, _ | 8, _ | 9, _ => decide
  | n + 10, h => exact absurd h (by omega)

theorem isDigitChar_ne (c : Char) (h : isDigitChar c = true) : c ≠ 'x' ∧ c ≠ ' ' := by
  constructor <;> rintro rfl <;> exact absurd h (by decide)

theorem natToCharsAux_digits (fuel n : Nat) :
    ∀ c ∈ natToCharsAux fuel n, isDigitChar c = true := by
  induction fuel generalizing n with
  | zero => intro c hc; cases hc
  | succ fuel ih =>
    intro c hc
    cases n with
    | zero => cases hc
    | succ k =>
      simp only [natToCharsAux] at hc
      rcases List.mem_append.mp hc with hrec | hlast
      · exact ih _ c hrec
      · rcases List.mem_singleton.mp hlast with rfl
        exact isDigitChar_digitChar _

theorem foldl_natToCharsAux (fuel : Nat) :
    ∀ n acc, n ≤ fuel →
      List.foldl (fun a c => a * 10 + (c.toNat - 48)) acc (natToCharsAux fuel n)
        = acc * 10 ^ (natToCharsAux fuel n).length + n := by
  induction fuel with
  | zero =>
    intro n acc h
    have hn : n = 0 := by omega
    subst hn
    simp [natToCharsAux]
  | succ fuel ih =>
    intro n acc h
    cases n with
    | zero => simp [natToCharsAux]
    | succ k =>
      simp only [natToCharsAux]
      rw [List.foldl_append, List.foldl_cons, List.foldl_nil]
      have hdiv : (k + 1) / 10 ≤ fuel := by
        have h1 : (k + 1) / 10 < k + 1 := Nat.div_lt_self (Nat.succ_pos k) (by omega)
        omega
      rw [ih ((k + 1) / 10) acc hdiv]
      rw [digitChar_val _ (Nat.mod_lt _ (by omega))]
      rw [List.length_append, List.length_cons, List.length_nil]
      rw [pow_succ, ← mul_assoc]
      generalize acc * 10 ^ (natToCharsAux fuel ((k + 1) / 10)).length = A
      omega

theorem natToChars_digits (n : Nat) : ∀ c ∈ natToChars n, isDigitChar c = true :=
  natToCharsAux_digits n n

theorem natToChars_ne_nil (n : Nat) (h : 0 < n) : natToChars n ≠ [] := by
  cases n with
  | zero => exact absurd h (by omega)
  | succ k =>
    show natToCharsAux (k + 1) (k + 1) ≠ []
    simp [natToCharsAux]

theorem charsToNat_natToChars (n : Nat) (h : 0 < n) :
    charsToNat (natToChars n) = some n := by
  have hne : natToChars n ≠ [] := natToChars_ne_nil n h
  have hempty : (natToChars n).isEmpty = false := by
    cases hl : natToChars n with
    | nil => exact absurd hl hne
    | cons a l => rfl
  have hall : (natToChars n).all isDigitChar = true :=
    List.all_eq_true.mpr fun c hc => natToChars_digits n c hc
  have hcore : charsToNatCore (natToChars n) = n := by
    show List.foldl _ 0 (natToCharsAux n n) = n
    rw [foldl_natToCharsAux n n 0 (Nat.le_refl n)]
    simp
  simp only [charsToNat, hempty, hall, hcore, Bool.false_eq_true, if_false, if_true]

theorem takeWhile_append_stop (p : Char → Bool) (l suf : List Char) (c : Char)
    (hl : ∀ x ∈ l, p x = true) (hc : p c = false) :
    (l ++ c :: suf).takeWhile p = l := by
  induction l with
  | nil => simp [List.takeWhile, hc]
  | cons a as ih =>
    have ha : p a = true := hl a (List.mem_cons_self a as)
    have ih' : List.takeWhile p (as.append (c :: suf)) = as :=
      ih fun x hx => hl x (List.mem_cons_of_mem a hx)
    simp only [List.cons_append, List.takeWhile, ha, ih']

theorem dropWhile_append_stop (p : Char → Bool) (l suf : List Char) (c : Char)
    (hl : ∀ x ∈ l, p x = true) (hc : p c = false) :
    (l ++ c :: suf).dropWhile p = c :: suf := by
  induction l with
  | nil => simp [List.dropWhile, hc]
  | cons a as ih =>
    have ha : p a = true := hl a (List.mem_cons_self a as)
    have ih' : List.dropWhile p (as.append (c :: suf)) = c :: suf :=
      ih fun x hx => hl x (List.mem_cons_of_mem a hx)
    simp only [List.cons_append, List.dropWhile, ha, ih']

theorem takeWhile_all_true (p : Char → Bool) (l : List Char)
    (hl : ∀ x ∈ l, p x = true) : l.takeWhile p = l := by
  induction l with
  | nil => rfl
  | cons a as ih =>
    have ha : p a = true := hl a (List.mem_cons_self a as)
    simp only [List.takeWhile, ha]
    rw [ih fun x hx => hl x (List.mem_cons_of_mem a hx)]

theorem dropWhile_all_true (p : Char → Bool) (l : List Char)
    (hl : ∀ x ∈ l, p x = true) : l.dropWhile p = [] := by
  induction l with
  | nil => rfl
  | cons a as ih =>
    have ha : p a = true := hl a (List.mem_cons_self a as)
    simp only [List.dropWhile, ha]
    exact ih fun x hx => hl x (List.mem_cons_of_mem a hx)

theorem parseReference_scheme (rest : List Char) :
    parseReference (SCHEME_STR ++ rest)
      = (if (rest.takeWhile (fun c => c ≠ ' ')).isEmpty then none
         else
           match rest.dropWhile (fun c => c ≠ ' ') with
           | [] => some ⟨rest.takeWhile (fun c => c ≠ ' '), none⟩
           | _ :: suffix =>
             some ⟨rest.takeWhile (fun c => c ≠ ' '), parseSizing suffix⟩) := by
  simp only [parseReference, List.take_left, List.drop_left, if_true]

theorem parseSizing_format (w h : Nat) (hw : 0 < w) (hh : 0 < h) :
    parseSizing ('=' :: (natToChars w ++ 'x' :: natToChars h)) = some (w, h) := by
  have hdigw : ∀ c ∈ natToChars w, (decide (c ≠ 'x')) = true := by
    intro c hc
    have := (isDigitChar_ne c (natToChars_digits w c hc)).1
    simp [this]
  have htake : (natToChars w ++ 'x' :: natToChars h).takeWhile (fun x => decide (x ≠ 'x'))
      = natToChars w :=
    takeWhile_append_stop _ (natToChars w) (natToChars h) 'x' hdigw (by decide)
  have hdrop : (natToChars w ++ 'x' :: natToChars h).dropWhile (fun x => decide (x ≠ 'x'))
      = 'x' :: natToChars h :=
    dropWhile_append_stop _ (natToChars w) (natToChars h) 'x' hdigw (by decide)
  simp only [parseSizing, htake, hdrop, charsToNat_natToChars w hw,
    charsToNat_natToChars h hh, hw, hh, and_self, if_true]

/-- C2: formatting a valid Reference (nonempty alphanumeric id, positive
sizing values when present) and parsing the result back yields an equal
Reference. -/
theorem reference_round_trip (r : Reference) (h : ValidReference r) :
    parseReference (formatReference r) = some r := by
  obtain ⟨rid, rdims⟩ := r
  obtain ⟨hid, halpha, hdims⟩ := h
  have hspace : ∀ c ∈ rid, (decide (c ≠ ' ')) = true := by
    intro c hc
    have ha := halpha c hc
    have : c ≠ ' ' := by
      rintro rfl
      exact absurd ha (by decide)
    simp [this]
  have hempty : rid.isEmpty = false := by
    cases hl : rid with
    | nil => exact absurd hl hid
    | cons a l => rfl
  cases rdims with
  | none =>
    show parseReference (SCHEME_STR ++ rid ++ []) = _
    rw [List.append_nil, parseReference_scheme]
    rw [takeWhile_all_true _ rid hspace, dropWhile_all_true _ rid hspace, hempty]
    simp only [Bool.false_eq_true, if_false]
  | some wh =>
    obtain ⟨w, hv⟩ := wh
    have hpos := hdims (w, hv) rfl
    show parseReference
        (SCHEME_STR ++ rid ++ (' ' :: '=' :: (natToChars w ++ 'x' :: natToChars hv)))
        = _
    rw [List.append_assoc, parseReference_scheme]
    rw [takeWhile_append_stop _ rid _ ' ' hspace (by decide)]
    rw [dropWhile_append_stop _ rid _ ' ' hspace (by decide)]
    rw [hempty]
    simp only [Bool.false_eq_true, if_false]
    show some (Reference.mk rid (parseSizing ('=' :: (natToChars w ++ 'x' :: natToChars hv))))
        = some (Reference.mk rid (some (w, hv)))
    rw [parseSizing_format w hv hpos.1 hpos.2]

/-- Witness for C2: the Reference with id `img42` and sizing 200x150
round-trips through format and parse. -/
theorem reference_round_trip_witness :
    parseReference (formatReference ⟨chars "img42", some (200, 150)⟩)
      = some ⟨chars "img42", some (200, 150)⟩ :=
  reference_round_trip ⟨chars "img42", some (200, 150)⟩
    ⟨by decide, by decide, by decide⟩

/-- C6: the sizing suffix `=200x150` parses to the dimensions pair
(200, 150), while a non-positive width (`=0x150`), a non-integer suffix
(`=abcxdef`), and an absent suffix all degrade to "no sizing hint" — in
every case the Reference itself still parses successfully. -/
theorem sizing_fail_open :
    parseReference (chars "indexeddb://clipboard-images/abc =200x150")
        = some ⟨chars "abc", some (200, 150)⟩ ∧
    parseReference (chars "indexeddb://clipboard-images/abc =0x150")
        = some ⟨chars "abc", none⟩ ∧
    parseReference (chars "indexeddb://clipboard-images/abc =abcxdef")
        = some ⟨chars "abc", none⟩ ∧
    parseReference (chars "indexeddb://clipboard-images/abc")
        = some ⟨chars "abc", none⟩ := by
  refine ⟨?_, ?_, ?_, ?_⟩ <;> decide

/-- C3: on the capped backend a payload of exactly 2 MiB saves
successfully and is recorded, a payload of 2 MiB + 1 fails with
`SizeLimitExceeded`, and the failed save leaves the store unchanged, so
an id that was absent before the failed attempt is still absent. -/
theorem blob_size_boundary (store : BlobStore) (id mime : List Char)
    (byteList : List Nat) (now : Nat) :
    (byteList.length = MAX_IMAGE_SIZE →
      blobSave store id byteList mime now
        = (Except.ok id, ⟨(id, ⟨byteList, mime, byteList.length, now⟩) :: store.entries⟩)) ∧
    (byteList.length = MAX_IMAGE_SIZE + 1 →
      blobSave store id byteList mime now
        = (Except.error SaveError.sizeLimitExceeded, store) ∧
      (blobLoad store id = none →
        blobLoad (blobSave store id byteList mime now).2 id = none)) := by
  constructor
  · intro hlen
    rw [blobSave, if_neg (by omega)]
  · intro hlen
    have hov : MAX_IMAGE_SIZE < byteList.length := by omega
    constructor
    · rw [blobSave, if_pos hov]
    · intro habsent
      rw [blobSave, if_pos hov]
      exact habsent

/-- Witness for C3: the 2 MiB boundary checked on concrete payloads of
length 2097152 and 2097153 against an empty store. -/
theorem blob_size_boundary_witness :
    blobSave ⟨[]⟩ (chars "k") (List.replicate (2 * 1024 * 1024) 0) (chars "image/png") 5
        = (Except.ok (chars "k"),
           ⟨[(chars "k",
              ⟨List.replicate (2 * 1024 * 1024) 0, chars "image/png",
               (List.replicate (2 * 1024 * 1024) 0).length, 5⟩)]⟩) ∧
      blobSave ⟨[]⟩ (chars "k") (List.replicate (2 * 1024 * 1024 + 1) 0) (chars "image/png") 5
        = (Except.error SaveError.sizeLimitExceeded, ⟨[]⟩) ∧
      blobLoad (blobSave ⟨[]⟩ (chars "k") (List.replicate (2 * 1024 * 1024 + 1) 0)
          (chars "image/png") 5).2 (chars "k") = none := by
  have h1 := (blob_size_boundary ⟨[]⟩ (chars "k") (chars "image/png")
      (List.replicate (2 * 1024 * 1024) 0) 5).1
    (by rw [List.length_replicate, MAX_IMAGE_SIZE])
  have h2 := (blob_size_boundary ⟨[]⟩ (chars "k") (chars "image/png")
      (List.replicate (2 * 1024 * 1024 + 1) 0) 5).2
    (by rw [List.length_replicate, MAX_IMAGE_SIZE])
  exact ⟨h1, h2.1, h2.2 rfl⟩

theorem findImageFile_after_unique_delete (s : FsState) (id fp : List Char)
    (hf : findImageFile s id = some fp)
    (huniq : ∀ ext ∈ SUPPORTED_IMAGE_EXTENSIONS,
      existsSync s (id ++ ext) = true → id ++ ext = fp) :
    findImageFile (clipboardImageDelete s id).2 id = none := by
  simp only [clipboardImageDelete, hf]
  apply findImageFileAux_none
  intro ext hx
  rw [existsSync_unlink]
  cases hexx : existsSync s (id ++ ext) with
  | false => simp
  | true =>
    have heq := huniq ext hx hexx
    simp [heq]

/-- C4: load is total and returns the first-class missing outcome — on an
id no stored file matches, on an id whose single record was just deleted,
and on a medium read failure, `clipboardImageLoad` returns `none` instead
of raising. -/
theorem load_never_raises (s : FsState) (id : List Char) :
    ((∀ ext ∈ SUPPORTED_IMAGE_EXTENSIONS, existsSync s (id ++ ext) = false) →
      clipboardImageLoad s id = none) ∧
    (∀ fp, findImageFile s id = some fp → readFile s fp = some (Except.error ()) →
      clipboardImageLoad s id = none) ∧
    ((∃ fp, findImageFile s id = some fp ∧
        ∀ ext ∈ SUPPORTED_IMAGE_EXTENSIONS,
          existsSync s (id ++ ext) = true → id ++ ext = fp) →
      clipboardImageLoad (clipboardImageDelete s id).2 id = none) := by
  refine ⟨?_, ?_, ?_⟩
  · intro h
    have hfind : findImageFile s id = none := findImageFileAux_none s id _ h
    simp only [clipboardImageLoad, hfind]
  · intro fp hf hr
    simp only [clipboardImageLoad, hf, hr]
  · rintro ⟨fp, hf, huniq⟩
    have hnone := findImageFile_after_unique_delete s id fp hf huniq
    simp only [clipboardImageLoad, hnone]

/-- Witness for C4: loading the never-saved id `zz` from an empty store,
an id whose only file fails to read, and an id that was just deleted all
yield `none`. -/
theorem load_never_raises_witness :
    clipboardImageLoad ⟨[]⟩ (chars "zz") = none ∧
    clipboardImageLoad ⟨[(chars "zz" ++ chars ".png", Except.error ())]⟩ (chars "zz")
      = none ∧
    clipboardImageLoad
      (clipboardImageDelete ⟨[(chars "zz" ++ chars ".png", Except.ok [1])]⟩ (chars "zz")).2
      (chars "zz") = none := by
  refine ⟨?_, ?_, ?_⟩
  · exact (load_never_raises ⟨[]⟩ (chars "zz")).1 (by decide)
  · exact (load_never_raises ⟨[(chars "zz" ++ chars ".png", Except.error ())]⟩
      (chars "zz")).2.1 (chars "zz" ++ chars ".png") (by decide) (by decide)
  · exact (load_never_raises ⟨[(chars "zz" ++ chars ".png", Except.ok [1])]⟩
      (chars "zz")).2.2 ⟨chars "zz" ++ chars ".png", by decide, by decide⟩

/-- C5: delete returns a boolean determined by whether a file for the id
exists, deleting a nonexistent id returns `false` with the store
untouched, and after a successful delete of an id with a single matching
record a second delete of the same id returns `false`. -/
theorem delete_idempotent (s : FsState) (id : List Char) :
    ((clipboardImageDelete s id).1 = (findImageFile s id).isSome) ∧
    (findImageFile s id = none → clipboardImageDelete s id = (false, s)) ∧
    ((∃ fp, findImageFile s id = some fp ∧
        ∀ ext ∈ SUPPORTED_IMAGE_EXTENSIONS,
          existsSync s (id ++ ext) = true → id ++ ext = fp) →
      (clipboardImageDelete s id).1 = true ∧
      (clipboardImageDelete (clipboardImageDelete s id).2 id).1 = false) := by
  refine ⟨?_, ?_, ?_⟩
  · cases hf : findImageFile s id with
    | none => simp [clipboardImageDelete, hf]
    | some fp => simp [clipboardImageDelete, hf]
  · intro hf
    simp only [clipboardImageDelete, hf]
  · rintro ⟨fp, hf, huniq⟩
    constructor
    · simp [clipboardImageDelete, hf]
    · have hnone := findImageFile_after_unique_delete s id fp hf huniq
      set s2 := (clipboardImageDelete s id).2 with hs2
      simp only [clipboardImageDelete, hnone]

/-- Witness for C5: deleting the absent id `zz` from an empty store
returns `false` and leaves the store unchanged; deleting an id with one
stored file returns `true` and a second delete returns `false`. -/
theorem delete_idempotent_witness :
    clipboardImageDelete ⟨[]⟩ (chars "zz") = (false, ⟨[]⟩) ∧
    (clipboardImageDelete ⟨[(chars "zz" ++ chars ".png", Except.ok [1])]⟩
        (chars "zz")).1 = true ∧
    (clipboardImageDelete
        (clipboardImageDelete ⟨[(chars "zz" ++ chars ".png", Except.ok [1])]⟩
          (chars "zz")).2
        (chars "zz")).1 = false := by
  refine ⟨?_, ?_, ?_⟩
  · exact (delete_idempotent ⟨[]⟩ (chars "zz")).2.1 (by decide)
  · exact ((delete_idempotent ⟨[(chars "zz" ++ chars ".png", Except.ok [1])]⟩
      (chars "zz")).2.2 ⟨chars "zz" ++ chars ".png", by decide, by decide⟩).1
  · exact ((delete_idempotent ⟨[(chars "zz" ++ chars ".png", Except.ok [1])]⟩
      (chars "zz")).2.2 ⟨chars "zz" ++ chars ".png", by decide, by decide⟩).2

/-- C7: the clipboard file-path filter keeps exactly the paths that exist
at capture time and whose lowercased `path.extname` extension is a
supported image extension; in particular a `.txt` path is dropped while
an existing `.png` path survives, an ordinary full path `/a/b.png`
survives, and a hidden-file path `/a/.png` is dropped because its
leading-dot basename has the empty extension. -/
theorem file_path_classification (fsExists : List Char → Bool)
    (filePaths : List (List Char)) :
    (∀ p, p ∈ imageFilesFilter fsExists filePaths ↔
      p ∈ filePaths ∧ fsExists p = true ∧
        toLowerStr (extname p) ∈ SUPPORTED_IMAGE_EXTENSIONS) ∧
    imageFilesFilter (fun _ => true) [chars "note.txt", chars "pic.png"]
      = [chars "pic.png"] ∧
    imageFilesFilter (fun _ => true) [chars "/a/.png", chars "/a/b.png"]
      = [chars "/a/b.png"] := by
  refine ⟨?_, ?_, ?_⟩
  · intro p
    simp only [imageFilesFilter, List.mem_filter]
    have hcont : SUPPORTED_IMAGE_EXTENSIONS.contains (toLowerStr (extname p)) = true
        ↔ toLowerStr (extname p) ∈ SUPPORTED_IMAGE_EXTENSIONS := by
      show List.elem _ _ = true ↔ _
      exact List.elem_iff
    constructor
    · rintro ⟨hp, hcond⟩
      cases hex : fsExists p with
      | false =>
        rw [hex] at hcond
        simp at hcond
      | true =>
        rw [hex] at hcond
        simp only [Bool.not_true, Bool.false_eq_true, if_false] at hcond
        exact ⟨hp, rfl, hcont.mp hcond⟩
    · rintro ⟨hp, hex, hmem⟩
      refine ⟨hp, ?_⟩
      rw [hex]
      simp only [Bool.not_true, Bool.false_eq_true, if_false]
      exact hcont.mpr hmem
  · decide
  · decide

/-- C8: the extension-to-mimeType mapping is total and stable — any
extension whose lowercasing is outside the known set maps to `image/png`,
two extensions with the same lowercasing map to the same mime type, every
result lies in the fixed mime set — and raw clipboard bytes with no
determinable source format are stored and reported as `image/png`. -/
theorem mime_mapping_total (ext ext2 : List Char) :
    (toLowerStr ext ∉ SUPPORTED_IMAGE_EXTENSIONS →
      getMimeFromExt ext = chars "image/png") ∧
    (toLowerStr ext = toLowerStr ext2 →
      getMimeFromExt ext = getMimeFromExt ext2) ∧
    getMimeFromExt ext ∈ SUPPORTED_MIME_TYPES ∧
    (∀ (s : FsState) (id : List Char) (pngBytes : List Nat) (now : Nat),
      (clipboardReadImage s id (some pngBytes) now).1
        = some (id, chars "image/png", pngBytes.length, now)) := by
  refine ⟨?_, ?_, ?_, ?_⟩
  · intro h
    simp only [SUPPORTED_IMAGE_EXTENSIONS, List.mem_cons, List.not_mem_nil, or_false,
      not_or] at h
    obtain ⟨h1, h2, h3, h4, h5, h6, h7⟩ := h
    simp only [getMimeFromExt]
    rw [if_neg h1, if_neg (not_or.mpr ⟨h2, h3⟩), if_neg h4, if_neg h5, if_neg h6,
      if_neg h7]
  · intro h
    simp only [getMimeFromExt]
    rw [h]
  · simp only [getMimeFromExt]
    split
    · decide
    · split
      · decide
      · split
        · decide
        · split
          · decide
          · split
            · decide
            · split <;> decide
  · intro s id pngBytes now
    rfl

/-- Witness for C8: the unknown extension `.xyz` maps to `image/png`, and
the uppercase `.PNG` maps like its lowercase form. -/
theorem mime_mapping_total_witness :
    getMimeFromExt (chars ".xyz") = chars "image/png" ∧
    getMimeFromExt (chars ".PNG") = getMimeFromExt (chars ".png") :=
  ⟨(mime_mapping_total (chars ".xyz") (chars ".xyz")).1 (by decide),
   (mime_mapping_total (chars ".PNG") (chars ".png")).2.1 (by decide)⟩

/-- C10: load, delete, and get-path all resolve an id through the same
`findImageFile` scan — get-path returns its result, load reads exactly
the file it names, delete unlinks exactly that file; the scan returns the
first extension in the fixed `.png`-first order whose file exists; and
when no supported-extension file exists for the id (even if files with
other extensions do), all three operations report the id as missing. -/
theorem resolution_consistency (s : FsState) (id : List Char) :
    (clipboardImageGetPath s id = findImageFile s id) ∧
    (∀ fp b, findImageFile s id = some fp → readFile s fp = some (Except.ok b) →
      clipboardImageLoad s id = some (b, getMimeFromExt (extname fp)) ∧
      clipboardImageDelete s id = (true, unlink s fp)) ∧
    (∀ fp, findImageFile s id = some fp ↔
      ∃ l₁ ext l₂, SUPPORTED_IMAGE_EXTENSIONS = l₁ ++ ext :: l₂ ∧ fp = id ++ ext ∧
        existsSync s (id ++ ext) = true ∧
        ∀ e ∈ l₁, existsSync s (id ++ e) = false) ∧
    ((∀ ext ∈ SUPPORTED_IMAGE_EXTENSIONS, existsSync s (id ++ ext) = false) →
      clipboardImageLoad s id = none ∧ clipboardImageDelete s id = (false, s) ∧
        clipboardImageGetPath s id = none) := by
  refine ⟨rfl, ?_, ?_, ?_⟩
  · intro fp b hf hr
    exact ⟨by simp only [clipboardImageLoad, hf, hr],
           by simp only [clipboardImageDelete, hf]⟩
  · intro fp
    exact findImageFileAux_some_iff s id _ fp
  · intro h
    have hfind : findImageFile s id = none := findImageFileAux_none s id _ h
    exact ⟨by simp only [clipboardImageLoad, hfind],
           by simp only [clipboardImageDelete, hfind],
           hfind⟩

/-- Witness for C10: with both `b.png` and `b.jpg` present the `.png`
file wins for load and delete, and an id stored only under the
unsupported extension `.xyz` is unreachable by all three operations. -/
theorem resolution_consistency_witness :
    clipboardImageLoad
        ⟨[(chars "b" ++ chars ".png", Except.ok [9]),
          (chars "b" ++ chars ".jpg", Except.ok [8])]⟩ (chars "b")
      = some ([9], getMimeFromExt (extname (chars "b" ++ chars ".png"))) ∧
    clipboardImageDelete
        ⟨[(chars "b" ++ chars ".png", Except.ok [9]),
          (chars "b" ++ chars ".jpg", Except.ok [8])]⟩ (chars "b")
      = (true, unlink
          ⟨[(chars "b" ++ chars ".png", Except.ok [9]),
            (chars "b" ++ chars ".jpg", Except.ok [8])]⟩ (chars "b" ++ chars ".png")) ∧
    clipboardImageLoad ⟨[(chars "c" ++ chars ".xyz", Except.ok [1])]⟩ (chars "c")
      = none ∧
    clipboardImageGetPath ⟨[(chars "c" ++ chars ".xyz", Except.ok [1])]⟩ (chars "c")
      = none := by
  have h1 := (resolution_consistency
      ⟨[(chars "b" ++ chars ".png", Except.ok [9]),
        (chars "b" ++ chars ".jpg", Except.ok [8])]⟩ (chars "b")).2.1
    (chars "b" ++ chars ".png") [9] (by decide) (by decide)
  have h2 := (resolution_consistency
      ⟨[(chars "c" ++ chars ".xyz", Except.ok [1])]⟩ (chars "c")).2.2.2 (by decide)
  exact ⟨h1.1, h1.2, h2.1, h2.2.2⟩
